import Mathlib

/-!
Verification of the segmented code-input widget in
`src/components/CodeInput.tsx` against its specification.

The component keeps an interaction state `{ codeArr : string[], currentIndex }`
and reacts to host events through the handlers `_onFocus`, `_onKeyPress`,
`_onInputCode` and the helper `clear`.  We embed that state and those
handlers as pure functions.  Side effects (the `onCodeChange` / `onFulfill`
callbacks and the imperative `focus` / `blur` requests against the per-cell
input handles) are modelled as an emitted list of `Event`s.

React's `setState(updater)` calls are applied in call order to the committed
state, and the closure variable `state` read inside a handler always denotes
the pre-handler state; both readings (immediate application and batched
in-order application) yield the same committed state for every handler of
this component, so the embedding is insensitive to that choice.
-/

namespace CodeInput

/-- Configuration of the widget: the props that the interaction logic reads.
`codeLength` defaults to 5 in the source, `compareWithCode` to `""` (the
source treats the empty string as "no comparison target configured" via JS
truthiness), and an `undefined` `ignoreCase` prop reaches `_isMatchingCode`
as its default `false`, so it is modelled as a `Bool`. -/
structure Config where
  codeLength : Nat
  compareWithCode : String
  ignoreCase : Bool
deriving DecidableEq

/-- The component's interaction state (`IState` in the source):
`codeArr` is the ordered list of per-cell contents (empty string = empty
cell) and `currentIndex` is the focus cursor. -/
structure IState where
  codeArr : List String
  currentIndex : Nat
deriving DecidableEq

/-- Observable side effects of a handler, in emission order:
`codeChange` and `fulfill` are the `onCodeChange` / `onFulfill` callback
invocations (`fulfill code none` is the one-argument call of the
no-comparison-target branch), `focusReq i` is `_setFocus(i)` and
`blurReq i` is `_blur(i)`. -/
inductive Event where
  | codeChange (code : String)
  | fulfill (code : String) (isMatching : Option Bool)
  | focusReq (index : Nat)
  | blurReq (index : Nat)
deriving DecidableEq

/-- The mount-time state: `codeArr: new Array(codeLength).fill("")`,
`currentIndex: 0`. -/
def initState (codeLength : Nat) : IState :=
  ⟨List.replicate codeLength "", 0⟩

/-- `code.toLowerCase()` on the embedded strings: lower-case every
character. -/
def lowerStr (s : String) : String :=
  ⟨s.data.map Char.toLower⟩

/-- `_isMatchingCode(code, compareCode, isIgnoreCase)` from the source:
lower-cased equality when `isIgnoreCase`, exact equality otherwise. -/
def _isMatchingCode (code : String) (compareCode : String)
    (isIgnoreCase : Bool) : Bool :=
  if isIgnoreCase then lowerStr code == lowerStr compareCode
  else code == compareCode

/-- The loop `for (const i in newCodeArr) if (+i >= index) newCodeArr[i] = ""`
used by `_onFocus` and `_onKeyPress`: blank every slot at position `≥ n`,
modelled structurally. -/
def clearFrom : Nat → List String → List String
  | _, [] => []
  | 0, _ :: rest => "" :: clearFrom 0 rest
  | n + 1, c :: rest => c :: clearFrom n rest

/-- `_.findIndex(arr, c => !c)` from `_onFocus`: the index of the first
empty slot, with `none` standing for lodash's `-1`. -/
def findEmptyIdx : List String → Option Nat
  | [] => none
  | c :: rest => if c = "" then some 0 else (findEmptyIdx rest).map (· + 1)

/-- `clear()` from the source: reset the state to all-empty cells with
cursor 0 and request host focus on cell 0 (`_setFocus(0)`). -/
def clear (cfg : Config) : IState × List Event :=
  (initState cfg.codeLength, [Event.focusReq 0])

/-- The `_onFocus(index)` handler, run when host focus lands on cell
`index`.  If some earlier slot is empty it returns early with a redirecting
`_setFocus` request (`some j`) and no state change; otherwise it blanks
every slot at position `≥ index`, sets `currentIndex := index`, and issues
no focus request (`none`): the host's focus on `index` stands. -/
def _onFocus (s : IState) (index : Nat) : IState × Option Nat :=
  match findEmptyIdx s.codeArr with
  | some j =>
      if j < index then (s, some j)
      else ({ codeArr := clearFrom index s.codeArr, currentIndex := index }, none)
  | none => ({ codeArr := clearFrom index s.codeArr, currentIndex := index }, none)

/-- The `_onKeyPress` handler.  For the `"Backspace"` key it computes
`nextIndex = currentIndex > 0 ? currentIndex - 1 : 0` (truncated
subtraction on `Nat` is exactly this clamp), blanks a local clone from
`nextIndex` on, reports the joined clone through `onCodeChange`, and
requests focus on `nextIndex`.  It never calls `setState`: the returned
state is the input state.  Any other key does nothing. -/
def _onKeyPress (key : String) (s : IState) : IState × List Event :=
  if key = "Backspace" then
    let nextIndex := s.currentIndex - 1
    let newCodeArr := clearFrom nextIndex s.codeArr
    (s, [Event.codeChange (String.join newCodeArr), Event.focusReq nextIndex])
  else (s, [])

/-- The `_onInputCode(character, index)` handler.  The branch condition
`index === codeLength - 1` is rendered as `index + 1 = codeLength`, which
agrees with the JS comparison for every natural `codeLength` (including 0,
where the JS right-hand side is `-1` and never equals `index`).

In the mismatch branch the source calls `clear()` and then performs its own
`setState` with `currentIndex: prevState.currentIndex + 1`: the updaters
are applied in call order, so `clear`'s reset of `codeArr` is overwritten
by `newCodeArr` and the committed cursor is `0 + 1`.  The reset state is
only reached later, when the `focusReq 0` emitted by `clear` is granted and
`_onFocus 0` runs (see `opEnter`).  The blur request targets the closure
value `state.currentIndex`, i.e. the pre-handler cursor. -/
def _onInputCode (cfg : Config) (character : String) (index : Nat)
    (s : IState) : IState × List Event :=
  let newCodeArr := s.codeArr.set index character
  if index + 1 = cfg.codeLength then
    let code := String.join newCodeArr
    if cfg.compareWithCode ≠ "" then
      let isMatching := _isMatchingCode code cfg.compareWithCode cfg.ignoreCase
      if isMatching then
        ({ codeArr := newCodeArr, currentIndex := s.currentIndex + 1 },
         [Event.fulfill code (some isMatching), Event.blurReq s.currentIndex,
          Event.codeChange code])
      else
        ({ codeArr := newCodeArr, currentIndex := 0 + 1 },
         [Event.fulfill code (some isMatching), Event.focusReq 0,
          Event.blurReq s.currentIndex, Event.codeChange code])
    else
      ({ codeArr := newCodeArr, currentIndex := s.currentIndex + 1 },
       [Event.fulfill code none, Event.blurReq s.currentIndex,
        Event.codeChange code])
  else
    ({ codeArr := newCodeArr, currentIndex := s.currentIndex + 1 },
     [Event.focusReq (s.currentIndex + 1),
      Event.codeChange (String.join newCodeArr)])

/-- Delivery of one granted focus request: host focus lands on `index`, the
`_onFocus` handler runs, and if it redirects (`some j`) the host grants the
redirected request and `_onFocus` runs once more at `j`.  A second redirect
is impossible: a redirect leaves the state unchanged and its target `j` is
the first empty index of that very state, so the rerun takes the
no-redirect branch. -/
def resolveFocus (s : IState) (index : Nat) : IState :=
  match _onFocus s index with
  | (s', none) => s'
  | (s', some j) => (_onFocus s' j).1

/-- Deliver the focus requests of an emitted event list, in order, against
the committed state.  Callback events and blur requests do not touch the
interaction state. -/
def deliver (s : IState) : List Event → IState
  | [] => s
  | Event.focusReq j :: rest => deliver (resolveFocus s j) rest
  | Event.codeChange _ :: rest => deliver s rest
  | Event.fulfill _ _ :: rest => deliver s rest
  | Event.blurReq _ :: rest => deliver s rest

/-- The `enterCharacter` operation: the host delivers `character` to the
focused cell (so the handler's `index` argument is `currentIndex`), the
`_onInputCode` handler runs, and any focus request it emitted is granted. -/
def opEnter (cfg : Config) (character : String) (s : IState) :
    IState × List Event :=
  let r := _onInputCode cfg character s.currentIndex s
  (deliver r.1 r.2, r.2)

/-- The `backspace` operation: the `_onKeyPress` handler runs for the
`"Backspace"` key and its focus request is granted. -/
def opBackspace (s : IState) : IState × List Event :=
  let r := _onKeyPress "Backspace" s
  (deliver r.1 r.2, r.2)

/-- The `focus` operation: host focus lands on cell `index` and resolves
through `_onFocus` (following a redirect when one is issued). -/
def opFocus (s : IState) (index : Nat) : IState :=
  resolveFocus s index

/-- The `clear` operation: `clear()` runs and its focus request on cell 0
is granted. -/
def opClear (cfg : Config) : IState × List Event :=
  let r := clear cfg
  (deliver r.1 r.2, r.2)

/-- Enter a sequence of characters one by one, each into the currently
focused cell, concatenating the emitted events. -/
def runChars (cfg : Config) (s : IState) : List String → IState × List Event
  | [] => (s, [])
  | c :: rest =>
      let r1 := opEnter cfg c s
      let r2 := runChars cfg r1.1 rest
      (r2.1, r1.2 ++ r2.2)

/-- Content of cell `i` (empty string when out of range). -/
def cell (s : IState) (i : Nat) : String :=
  s.codeArr.getD i ""

/-- The spec's cursor invariant: the cell list has the configured length,
the cursor is in range, and the cells form a filled-below-the-cursor /
empty-from-the-cursor partition. -/
def Inv (cfg : Config) (s : IState) : Prop :=
  s.codeArr.length = cfg.codeLength ∧
  s.currentIndex < cfg.codeLength ∧
  ∀ i, i < cfg.codeLength →
    ((i < s.currentIndex → cell s i ≠ "") ∧
     (s.currentIndex ≤ i → cell s i = ""))

/-- The excepted completion states: the last cell has just been filled, so
every slot is non-empty and the cursor has moved past the last cell. -/
def Completed (cfg : Config) (s : IState) : Prop :=
  s.codeArr.length = cfg.codeLength ∧
  s.currentIndex = cfg.codeLength ∧
  ∀ i, i < cfg.codeLength → cell s i ≠ ""

instance decidableInv (cfg : Config) (s : IState) : Decidable (Inv cfg s) := by
  unfold Inv
  infer_instance

instance decidableCompleted (cfg : Config) (s : IState) :
    Decidable (Completed cfg s) := by
  unfold Completed
  infer_instance

/-- States reachable from the mount state by the spec's four operations.
The guards are the host's physics: only an existing cell can receive
focus, and a keystroke is only delivered to a focusable (existing) focused
cell with a non-empty typed character. -/
inductive Reachable (cfg : Config) : IState → Prop
  | init : Reachable cfg (initState cfg.codeLength)
  | focus (s : IState) (k : Nat) : Reachable cfg s → k < cfg.codeLength →
      Reachable cfg (opFocus s k)
  | enter (s : IState) (c : String) : Reachable cfg s → c ≠ "" →
      s.currentIndex < cfg.codeLength → Reachable cfg (opEnter cfg c s).1
  | backspace (s : IState) : Reachable cfg s →
      s.currentIndex < cfg.codeLength → Reachable cfg (opBackspace s).1
  | clearStep (s : IState) : Reachable cfg s → Reachable cfg (opClear cfg).1

/-- The misconfiguration diagnostic of the mount effect:
`compareWithCode && compareWithCode.length !== codeLength`. -/
def invalidCompareLength (cfg : Config) : Bool :=
  (cfg.compareWithCode != "") && (cfg.compareWithCode.length != cfg.codeLength)

/-- Recognizer for `onCodeChange` events. -/
def isCodeChangeEv : Event → Bool
  | Event.codeChange _ => true
  | _ => false

/-- Recognizer for `onFulfill` events. -/
def isFulfillEv : Event → Bool
  | Event.fulfill _ _ => true
  | _ => false

/-- Write a list of characters into consecutive cells starting at `k`. -/
def writeSeq : List String → Nat → List String → List String
  | arr, _, [] => arr
  | arr, k, c :: rest => writeSeq (arr.set k c) (k + 1) rest

/-! ### List-level helper lemmas -/

theorem length_clearFrom (n : Nat) (l : List String) :
    (clearFrom n l).length = l.length := by
  induction l generalizing n with
  | nil => cases n <;> rfl
  | cons c rest ih =>
    cases n with
    | zero => simp [clearFrom, ih]
    | succ m => simp [clearFrom, ih]

theorem getD_clearFrom (n i : Nat) (l : List String) :
    (clearFrom n l).getD i "" = if n ≤ i then "" else l.getD i "" := by
  induction l generalizing n i with
  | nil =>
    cases n <;> simp [clearFrom]
  | cons c rest ih =>
    cases n with
    | zero =>
      cases i with
      | zero => simp [clearFrom]
      | succ j =>
        simp only [clearFrom, List.getD_cons_succ, ih]
        simp
    | succ m =>
      cases i with
      | zero => simp [clearFrom]
      | succ j =>
        simp only [clearFrom, List.getD_cons_succ, ih, Nat.succ_le_succ_iff]

theorem clearFrom_eq_self (n : Nat) (l : List String)
    (h : ∀ i, n ≤ i → l.getD i "" = "") : clearFrom n l = l := by
  induction l generalizing n with
  | nil => cases n <;> rfl
  | cons c rest ih =>
    cases n with
    | zero =>
      have hc : c = "" := h 0 (Nat.le_refl 0)
      have hr : clearFrom 0 rest = rest :=
        ih 0 (fun i _ => h (i + 1) (Nat.zero_le _))
      simp [clearFrom, hc, hr]
    | succ m =>
      have hr : clearFrom m rest = rest :=
        ih m (fun i hi => h (i + 1) (Nat.succ_le_succ hi))
      simp [clearFrom, hr]

theorem clearFrom_zero (l : List String) :
    clearFrom 0 l = List.replicate l.length "" := by
  induction l with
  | nil => rfl
  | cons c rest ih => simp [clearFrom, ih, List.replicate_succ]

theorem getD_of_length_le (l : List String) (i : Nat) (h : l.length ≤ i) :
    l.getD i "" = "" := by
  induction l generalizing i with
  | nil => simp
  | cons c rest ih =>
    cases i with
    | zero => simp at h
    | succ j => simpa using ih j (Nat.le_of_succ_le_succ h)

theorem getD_replicate (n i : Nat) :
    (List.replicate n "").getD i "" = "" := by
  induction n generalizing i with
  | zero => simp
  | succ m ih =>
    cases i with
    | zero => simp [List.replicate_succ]
    | succ j => simp [List.replicate_succ, ih j]

theorem getD_set_self (l : List String) (j : Nat) (c : String)
    (h : j < l.length) : (l.set j c).getD j "" = c := by
  induction l generalizing j with
  | nil => simp at h
  | cons a rest ih =>
    cases j with
    | zero => simp
    | succ m => simpa using ih m (Nat.lt_of_succ_lt_succ h)

theorem getD_set_ne (l : List String) (j : Nat) (c : String) (i : Nat)
    (h : i ≠ j) : (l.set j c).getD i "" = l.getD i "" := by
  induction l generalizing i j with
  | nil => rfl
  | cons a rest ih =>
    cases j with
    | zero =>
      cases i with
      | zero => exact absurd rfl h
      | succ m => simp
    | succ n =>
      cases i with
      | zero => simp
      | succ m =>
        simpa using ih n m (fun he => h (by simp [he]))

theorem findEmptyIdx_eq_some (l : List String) (n : Nat) (hn : n < l.length)
    (hpre : ∀ i, i < n → l.getD i "" ≠ "") (hem : l.getD n "" = "") :
    findEmptyIdx l = some n := by
  induction l generalizing n with
  | nil => simp at hn
  | cons a rest ih =>
    cases n with
    | zero =>
      have ha : a = "" := hem
      simp [findEmptyIdx, ha]
    | succ m =>
      have ha : ¬ a = "" := hpre 0 (Nat.succ_pos m)
      have hr : findEmptyIdx rest = some m :=
        ih m (Nat.lt_of_succ_lt_succ hn)
          (fun i hi => hpre (i + 1) (Nat.succ_lt_succ hi)) hem
      simp [findEmptyIdx, ha, hr]

theorem findEmptyIdx_eq_none (l : List String)
    (h : ∀ i, i < l.length → l.getD i "" ≠ "") : findEmptyIdx l = none := by
  induction l with
  | nil => rfl
  | cons a rest ih =>
    have ha : ¬ a = "" := h 0 (Nat.succ_pos _)
    have hr : findEmptyIdx rest = none :=
      ih (fun i hi => h (i + 1) (Nat.succ_lt_succ hi))
    simp [findEmptyIdx, ha, hr]

theorem findEmptyIdx_some_spec (l : List String) (j : Nat)
    (h : findEmptyIdx l = some j) :
    j < l.length ∧ l.getD j "" = "" ∧ ∀ i, i < j → l.getD i "" ≠ "" := by
  induction l generalizing j with
  | nil => simp [findEmptyIdx] at h
  | cons a rest ih =>
    by_cases ha : a = ""
    · simp [findEmptyIdx, ha] at h
      subst h
      exact ⟨Nat.succ_pos _, ha, fun i hi => absurd hi (Nat.not_lt_zero i)⟩
    · simp [findEmptyIdx, ha] at h
      obtain ⟨m, hm, hmj⟩ := h
      obtain ⟨h1, h2, h3⟩ := ih m hm
      subst hmj
      refine ⟨Nat.succ_lt_succ h1, by simpa using h2, ?_⟩
      intro i hi
      cases i with
      | zero => simpa using ha
      | succ p => simpa using h3 p (Nat.lt_of_succ_lt_succ hi)

/-! ### Handler computation lemmas -/

theorem _onFocus_redirect (s : IState) (j k : Nat)
    (h : findEmptyIdx s.codeArr = some j) (hj : j < k) :
    _onFocus s k = (s, some j) := by
  simp [_onFocus, h, hj]

theorem _onFocus_accept_some (s : IState) (j k : Nat)
    (h : findEmptyIdx s.codeArr = some j) (hj : ¬ j < k) :
    _onFocus s k = (⟨clearFrom k s.codeArr, k⟩, none) := by
  simp [_onFocus, h, hj]

theorem _onFocus_accept_none (s : IState) (k : Nat)
    (h : findEmptyIdx s.codeArr = none) :
    _onFocus s k = (⟨clearFrom k s.codeArr, k⟩, none) := by
  simp [_onFocus, h]

theorem resolveFocus_redirect (s : IState) (j k : Nat)
    (h : findEmptyIdx s.codeArr = some j) (hj : j < k) :
    resolveFocus s k = ⟨clearFrom j s.codeArr, j⟩ := by
  rw [resolveFocus, _onFocus_redirect s j k h hj]
  show (_onFocus s j).1 = _
  rw [_onFocus_accept_some s j j h (Nat.lt_irrefl j)]

theorem resolveFocus_accept_some (s : IState) (j k : Nat)
    (h : findEmptyIdx s.codeArr = some j) (hj : ¬ j < k) :
    resolveFocus s k = ⟨clearFrom k s.codeArr, k⟩ := by
  rw [resolveFocus, _onFocus_accept_some s j k h hj]

theorem resolveFocus_accept_none (s : IState) (k : Nat)
    (h : findEmptyIdx s.codeArr = none) :
    resolveFocus s k = ⟨clearFrom k s.codeArr, k⟩ := by
  rw [resolveFocus, _onFocus_accept_none s k h]

theorem onInput_not_last (cfg : Config) (c : String) (index : Nat)
    (s : IState) (h : ¬ index + 1 = cfg.codeLength) :
    _onInputCode cfg c index s =
      (⟨s.codeArr.set index c, s.currentIndex + 1⟩,
       [Event.focusReq (s.currentIndex + 1),
        Event.codeChange (String.join (s.codeArr.set index c))]) := by
  simp [_onInputCode, h]

theorem onInput_last_nocmp (cfg : Config) (c : String) (index : Nat)
    (s : IState) (h : index + 1 = cfg.codeLength)
    (hcmp : cfg.compareWithCode = "") :
    _onInputCode cfg c index s =
      (⟨s.codeArr.set index c, s.currentIndex + 1⟩,
       [Event.fulfill (String.join (s.codeArr.set index c)) none,
        Event.blurReq s.currentIndex,
        Event.codeChange (String.join (s.codeArr.set index c))]) := by
  simp [_onInputCode, h, hcmp]

theorem onInput_last_match (cfg : Config) (c : String) (index : Nat)
    (s : IState) (h : index + 1 = cfg.codeLength)
    (hcmp : cfg.compareWithCode ≠ "")
    (hm : _isMatchingCode (String.join (s.codeArr.set index c))
      cfg.compareWithCode cfg.ignoreCase = true) :
    _onInputCode cfg c index s =
      (⟨s.codeArr.set index c, s.currentIndex + 1⟩,
       [Event.fulfill (String.join (s.codeArr.set index c)) (some true),
        Event.blurReq s.currentIndex,
        Event.codeChange (String.join (s.codeArr.set index c))]) := by
  simp [_onInputCode, h, hcmp, hm]

theorem onInput_last_mismatch (cfg : Config) (c : String) (index : Nat)
    (s : IState) (h : index + 1 = cfg.codeLength)
    (hcmp : cfg.compareWithCode ≠ "")
    (hm : _isMatchingCode (String.join (s.codeArr.set index c))
      cfg.compareWithCode cfg.ignoreCase = false) :
    _onInputCode cfg c index s =
      (⟨s.codeArr.set index c, 0 + 1⟩,
       [Event.fulfill (String.join (s.codeArr.set index c)) (some false),
        Event.focusReq 0, Event.blurReq s.currentIndex,
        Event.codeChange (String.join (s.codeArr.set index c))]) := by
  simp [_onInputCode, h, hcmp, hm]

/-! ### Invariant lemmas -/

theorem inv_initState (cfg : Config) (hL : 1 ≤ cfg.codeLength) :
    Inv cfg (initState cfg.codeLength) := by
  refine ⟨List.length_replicate _ _, hL, ?_⟩
  intro i _
  exact ⟨fun h0 => absurd h0 (Nat.not_lt_zero i),
    fun _ => getD_replicate cfg.codeLength i⟩

theorem inv_clear_state (cfg : Config) (arr : List String) (k : Nat)
    (hlen : arr.length = cfg.codeLength) (hk : k < cfg.codeLength)
    (hpre : ∀ i, i < k → arr.getD i "" ≠ "") :
    Inv cfg ⟨clearFrom k arr, k⟩ := by
  refine ⟨by rw [length_clearFrom]; exact hlen, hk, ?_⟩
  intro i _
  constructor
  · intro hik
    show (clearFrom k arr).getD i "" ≠ ""
    rw [getD_clearFrom, if_neg (Nat.not_le_of_lt hik)]
    exact hpre i hik
  · intro hki
    show (clearFrom k arr).getD i "" = ""
    rw [getD_clearFrom, if_pos hki]

theorem inv_findEmptyIdx (cfg : Config) (s : IState) (h : Inv cfg s) :
    findEmptyIdx s.codeArr = some s.currentIndex := by
  obtain ⟨hlen, hidx, hcells⟩ := h
  refine findEmptyIdx_eq_some _ _ (by rw [hlen]; exact hidx) ?_ ?_
  · intro i hi
    exact (hcells i (Nat.lt_trans hi hidx)).1 hi
  · exact (hcells s.currentIndex hidx).2 (Nat.le_refl _)

theorem completed_findEmptyIdx (cfg : Config) (s : IState)
    (h : Completed cfg s) : findEmptyIdx s.codeArr = none := by
  obtain ⟨hlen, _, hcells⟩ := h
  exact findEmptyIdx_eq_none _ (fun i hi => hcells i (by rw [← hlen]; exact hi))

/-! ### Operation-level lemmas -/

theorem deliver_nil (s : IState) : deliver s [] = s := rfl

theorem deliver_focusReq (s : IState) (j : Nat) (rest : List Event) :
    deliver s (Event.focusReq j :: rest) = deliver (resolveFocus s j) rest := rfl

theorem deliver_codeChange (s : IState) (a : String) (rest : List Event) :
    deliver s (Event.codeChange a :: rest) = deliver s rest := rfl

theorem deliver_fulfill (s : IState) (a : String) (b : Option Bool)
    (rest : List Event) :
    deliver s (Event.fulfill a b :: rest) = deliver s rest := rfl

theorem deliver_blurReq (s : IState) (j : Nat) (rest : List Event) :
    deliver s (Event.blurReq j :: rest) = deliver s rest := rfl

theorem opFocus_inv (cfg : Config) (s : IState) (k : Nat) (h : Inv cfg s)
    (hk : k < cfg.codeLength) : Inv cfg (opFocus s k) := by
  have hfe := inv_findEmptyIdx cfg s h
  obtain ⟨hlen, hi0, hcells⟩ := h
  by_cases hlt : s.currentIndex < k
  · rw [opFocus, resolveFocus_redirect s s.currentIndex k hfe hlt]
    exact inv_clear_state cfg s.codeArr s.currentIndex hlen hi0
      (fun i hi => (hcells i (Nat.lt_trans hi hi0)).1 hi)
  · rw [opFocus, resolveFocus_accept_some s s.currentIndex k hfe hlt]
    exact inv_clear_state cfg s.codeArr k hlen hk
      (fun i hi =>
        (hcells i (Nat.lt_trans (Nat.lt_of_lt_of_le hi (Nat.le_of_not_lt hlt)) hi0)).1
          (Nat.lt_of_lt_of_le hi (Nat.le_of_not_lt hlt)))

theorem opFocus_completed (cfg : Config) (s : IState) (k : Nat)
    (h : Completed cfg s) (hk : k < cfg.codeLength) : Inv cfg (opFocus s k) := by
  have hfe := completed_findEmptyIdx cfg s h
  obtain ⟨hlen, _, hcells⟩ := h
  rw [opFocus, resolveFocus_accept_none s k hfe]
  exact inv_clear_state cfg s.codeArr k hlen hk
    (fun i hi => hcells i (Nat.lt_trans hi hk))

theorem set_last_filled (cfg : Config) (s : IState) (c : String)
    (h : Inv cfg s) (hc : c ≠ "") (hlast : s.currentIndex + 1 = cfg.codeLength) :
    ∀ i, i < (s.codeArr.set s.currentIndex c).length →
      (s.codeArr.set s.currentIndex c).getD i "" ≠ "" := by
  obtain ⟨hlen, hi0, hcells⟩ := h
  intro i hi
  rw [List.length_set, hlen] at hi
  by_cases hieq : i = s.currentIndex
  · subst hieq
    rw [getD_set_self _ _ _ (by rw [hlen]; exact hi0)]
    exact hc
  · have hilt : i < s.currentIndex := by omega
    rw [getD_set_ne _ _ _ _ hieq]
    exact (hcells i hi).1 hilt

theorem opEnter_mismatch_eq (cfg : Config) (s : IState) (c : String)
    (h : Inv cfg s) (hc : c ≠ "")
    (hlast : s.currentIndex + 1 = cfg.codeLength)
    (hcmp : cfg.compareWithCode ≠ "")
    (hm : _isMatchingCode (String.join (s.codeArr.set s.currentIndex c))
      cfg.compareWithCode cfg.ignoreCase = false) :
    opEnter cfg c s =
      (initState cfg.codeLength,
       [Event.fulfill (String.join (s.codeArr.set s.currentIndex c)) (some false),
        Event.focusReq 0, Event.blurReq s.currentIndex,
        Event.codeChange (String.join (s.codeArr.set s.currentIndex c))]) := by
  have hlen : s.codeArr.length = cfg.codeLength := h.1
  have hfe : findEmptyIdx (s.codeArr.set s.currentIndex c) = none :=
    findEmptyIdx_eq_none _ (set_last_filled cfg s c h hc hlast)
  rw [opEnter, onInput_last_mismatch cfg c s.currentIndex s hlast hcmp hm]
  have hres : resolveFocus ⟨s.codeArr.set s.currentIndex c, 0 + 1⟩ 0 =
      ⟨clearFrom 0 (s.codeArr.set s.currentIndex c), 0⟩ :=
    resolveFocus_accept_none _ 0 hfe
  rw [deliver_fulfill, deliver_focusReq, hres, deliver_blurReq,
    deliver_codeChange, deliver_nil]
  rw [clearFrom_zero, List.length_set, hlen]
  rfl

theorem opEnter_last_keep_eq (cfg : Config) (s : IState) (c : String)
    (flag : Option Bool) (evs : List Event)
    (heq : _onInputCode cfg c s.currentIndex s =
      (⟨s.codeArr.set s.currentIndex c, s.currentIndex + 1⟩,
       [Event.fulfill (String.join (s.codeArr.set s.currentIndex c)) flag,
        Event.blurReq s.currentIndex,
        Event.codeChange (String.join (s.codeArr.set s.currentIndex c))]))
    (hevs : evs =
      [Event.fulfill (String.join (s.codeArr.set s.currentIndex c)) flag,
       Event.blurReq s.currentIndex,
       Event.codeChange (String.join (s.codeArr.set s.currentIndex c))]) :
    opEnter cfg c s =
      (⟨s.codeArr.set s.currentIndex c, s.currentIndex + 1⟩, evs) := by
  rw [opEnter, heq, hevs]
  rfl

theorem onKeyPress_backspace (s : IState) :
    _onKeyPress "Backspace" s =
      (s, [Event.codeChange (String.join (clearFrom (s.currentIndex - 1) s.codeArr)),
           Event.focusReq (s.currentIndex - 1)]) := by
  simp [_onKeyPress]

theorem opBackspace_eq (cfg : Config) (s : IState) (h : Inv cfg s) :
    opBackspace s =
      (⟨clearFrom (s.currentIndex - 1) s.codeArr, s.currentIndex - 1⟩,
       [Event.codeChange (String.join (clearFrom (s.currentIndex - 1) s.codeArr)),
        Event.focusReq (s.currentIndex - 1)]) := by
  have hfe := inv_findEmptyIdx cfg s h
  have hnr : ¬ s.currentIndex < s.currentIndex - 1 := by omega
  show (deliver (_onKeyPress "Backspace" s).1 (_onKeyPress "Backspace" s).2,
    (_onKeyPress "Backspace" s).2) = _
  rw [onKeyPress_backspace]
  show (deliver s _, _) = _
  rw [deliver_codeChange, deliver_focusReq,
    resolveFocus_accept_some s s.currentIndex (s.currentIndex - 1) hfe hnr,
    deliver_nil]

theorem opBackspace_inv (cfg : Config) (s : IState) (h : Inv cfg s) :
    Inv cfg (opBackspace s).1 := by
  rw [opBackspace_eq cfg s h]
  obtain ⟨hlen, hi0, hcells⟩ := h
  exact inv_clear_state cfg s.codeArr (s.currentIndex - 1) hlen
    (by omega)
    (fun i hi => (hcells i (by omega)).1 (by omega))

theorem opClear_eq (cfg : Config) (hL : 1 ≤ cfg.codeLength) :
    (opClear cfg).1 = initState cfg.codeLength := by
  have hfe : findEmptyIdx (List.replicate cfg.codeLength "") = some 0 :=
    findEmptyIdx_eq_some _ 0
      (by rw [List.length_replicate]; exact hL)
      (fun i hi => absurd hi (Nat.not_lt_zero i))
      (getD_replicate _ _)
  rw [opClear]
  show deliver (initState cfg.codeLength) [Event.focusReq 0] = _
  rw [deliver_focusReq, deliver_nil, initState,
    resolveFocus_accept_some _ 0 0 hfe (Nat.lt_irrefl 0)]
  show IState.mk (clearFrom 0 (List.replicate cfg.codeLength "")) 0 = _
  rw [clearFrom_zero, List.length_replicate]

theorem opEnter_inv_or_completed (cfg : Config) (s : IState) (c : String)
    (h : Inv cfg s) (hc : c ≠ "") :
    Inv cfg (opEnter cfg c s).1 ∨ Completed cfg (opEnter cfg c s).1 := by
  have hlen : s.codeArr.length = cfg.codeLength := h.1
  have hi0 : s.currentIndex < cfg.codeLength := h.2.1
  by_cases hlast : s.currentIndex + 1 = cfg.codeLength
  · -- the entered character fills the last cell
    have hfill := set_last_filled cfg s c h hc hlast
    have hfilled : ∀ i, i < cfg.codeLength →
        cell ⟨s.codeArr.set s.currentIndex c, s.currentIndex + 1⟩ i ≠ "" := by
      intro i hi
      exact hfill i (by rw [List.length_set, hlen]; exact hi)
    have hclen : (s.codeArr.set s.currentIndex c).length = cfg.codeLength := by
      rw [List.length_set]; exact hlen
    by_cases hcmp : cfg.compareWithCode = ""
    · right
      rw [opEnter, onInput_last_nocmp cfg c s.currentIndex s hlast hcmp]
      exact ⟨hclen, hlast, hfilled⟩
    · rcases hb : _isMatchingCode (String.join (s.codeArr.set s.currentIndex c))
        cfg.compareWithCode cfg.ignoreCase with _ | _
      · left
        rw [opEnter_mismatch_eq cfg s c ⟨hlen, hi0, h.2.2⟩ hc hlast hcmp hb]
        exact inv_initState cfg (by omega)
      · right
        rw [opEnter, onInput_last_match cfg c s.currentIndex s hlast hcmp hb]
        exact ⟨hclen, hlast, hfilled⟩
  · -- not the last cell: the cursor advances
    left
    rw [opEnter, onInput_not_last cfg c s.currentIndex s hlast]
    have hsucc : s.currentIndex + 1 < cfg.codeLength := by omega
    have hfe : findEmptyIdx (s.codeArr.set s.currentIndex c) =
        some (s.currentIndex + 1) := by
      refine findEmptyIdx_eq_some _ _ (by rw [List.length_set, hlen]; exact hsucc)
        ?_ ?_
      · intro i hi
        by_cases hieq : i = s.currentIndex
        · subst hieq
          rw [getD_set_self _ _ _ (by rw [hlen]; exact hi0)]
          exact hc
        · rw [getD_set_ne _ _ _ _ hieq]
          exact (h.2.2 i (by omega)).1 (by omega)
      · rw [getD_set_ne _ _ _ _ (by omega)]
        exact (h.2.2 (s.currentIndex + 1) hsucc).2 (by omega)
    show Inv cfg (deliver _ _)
    rw [deliver_focusReq, deliver_codeChange, deliver_nil,
      resolveFocus_accept_some _ (s.currentIndex + 1) (s.currentIndex + 1) hfe
        (Nat.lt_irrefl _)]
    refine inv_clear_state cfg _ (s.currentIndex + 1)
      (by rw [List.length_set]; exact hlen) hsucc ?_
    intro i hi
    by_cases hieq : i = s.currentIndex
    · subst hieq
      rw [getD_set_self _ _ _ (by rw [hlen]; exact hi0)]
      exact hc
    · rw [getD_set_ne _ _ _ _ hieq]
      exact (h.2.2 i (by omega)).1 (by omega)

theorem findEmptyIdx_none_spec (l : List String) (h : findEmptyIdx l = none) :
    ∀ i, i < l.length → l.getD i "" ≠ "" := by
  induction l with
  | nil => intro i hi; simp at hi
  | cons a rest ih =>
    by_cases ha : a = ""
    · simp [findEmptyIdx, ha] at h
    · intro i hi
      cases i with
      | zero => simpa using ha
      | succ m =>
        have hr : findEmptyIdx rest = none := by
          simpa [findEmptyIdx, ha] using h
        simpa using ih hr m (Nat.lt_of_succ_lt_succ hi)

theorem isMatchingCode_eq_true_iff (a b : String) (ig : Bool) :
    _isMatchingCode a b ig = true ↔
      (if ig then lowerStr a = lowerStr b else a = b) := by
  cases ig <;> simp [_isMatchingCode]

theorem inv_set_advance (cfg : Config) (s : IState) (c : String)
    (h : Inv cfg s) (hc : c ≠ "")
    (hsucc : s.currentIndex + 1 < cfg.codeLength) :
    Inv cfg ⟨s.codeArr.set s.currentIndex c, s.currentIndex + 1⟩ := by
  obtain ⟨hlen, hi0, hcells⟩ := h
  refine ⟨by rw [List.length_set]; exact hlen, hsucc, ?_⟩
  intro i hi
  constructor
  · intro hilt
    have hilt' : i < s.currentIndex + 1 := hilt
    show (s.codeArr.set s.currentIndex c).getD i "" ≠ ""
    by_cases hieq : i = s.currentIndex
    · subst hieq
      rw [getD_set_self _ _ _ (by rw [hlen]; exact hi0)]
      exact hc
    · rw [getD_set_ne _ _ _ _ hieq]
      exact (hcells i hi).1 (by omega)
  · intro hige
    have hige' : s.currentIndex + 1 ≤ i := hige
    show (s.codeArr.set s.currentIndex c).getD i "" = ""
    rw [getD_set_ne _ _ _ _ (by omega)]
    exact (hcells i hi).2 (by omega)

theorem opEnter_mid_eq (cfg : Config) (s : IState) (c : String)
    (h : Inv cfg s) (hc : c ≠ "")
    (hnl : ¬ s.currentIndex + 1 = cfg.codeLength) :
    opEnter cfg c s =
      (⟨s.codeArr.set s.currentIndex c, s.currentIndex + 1⟩,
       [Event.focusReq (s.currentIndex + 1),
        Event.codeChange (String.join (s.codeArr.set s.currentIndex c))]) := by
  obtain ⟨hlen, hi0, hcells⟩ := h
  have hsucc : s.currentIndex + 1 < cfg.codeLength := by omega
  have hfe : findEmptyIdx (s.codeArr.set s.currentIndex c) =
      some (s.currentIndex + 1) := by
    refine findEmptyIdx_eq_some _ _ (by rw [List.length_set, hlen]; exact hsucc)
      ?_ ?_
    · intro i hi
      by_cases hieq : i = s.currentIndex
      · subst hieq
        rw [getD_set_self _ _ _ (by rw [hlen]; exact hi0)]
        exact hc
      · rw [getD_set_ne _ _ _ _ hieq]
        exact (hcells i (by omega)).1 (by omega)
    · rw [getD_set_ne _ _ _ _ (by omega)]
      exact (hcells (s.currentIndex + 1) hsucc).2 (by omega)
  have hsfx : ∀ i, s.currentIndex + 1 ≤ i →
      (s.codeArr.set s.currentIndex c).getD i "" = "" := by
    intro i hige
    by_cases hilen : i < cfg.codeLength
    · rw [getD_set_ne _ _ _ _ (by omega)]
      exact (hcells i hilen).2 (by omega)
    · exact getD_of_length_le _ i (by rw [List.length_set, hlen]; omega)
  rw [opEnter, onInput_not_last cfg c s.currentIndex s hnl]
  show (deliver _ _, _) = _
  rw [deliver_focusReq, deliver_codeChange, deliver_nil,
    resolveFocus_accept_some _ (s.currentIndex + 1) (s.currentIndex + 1) hfe
      (Nat.lt_irrefl _)]
  show (IState.mk (clearFrom (s.currentIndex + 1) _) _, _) = _
  rw [clearFrom_eq_self _ _ hsfx]

theorem runChars_nil (cfg : Config) (s : IState) : runChars cfg s [] = (s, []) := rfl

theorem runChars_cons (cfg : Config) (c : String) (rest : List String)
    (s : IState) :
    runChars cfg s (c :: rest) =
      ((runChars cfg (opEnter cfg c s).1 rest).1,
       (opEnter cfg c s).2 ++ (runChars cfg (opEnter cfg c s).1 rest).2) := rfl

theorem set_append_cons (pre : List String) (a c : String) (t : List String) :
    (pre ++ a :: t).set pre.length c = pre ++ c :: t := by
  induction pre with
  | nil => rfl
  | cons p ps ih => simp [List.set, ih]

theorem writeSeq_fills (cs : List String) :
    ∀ (pre suf : List String), suf.length = cs.length →
      writeSeq (pre ++ suf) pre.length cs = pre ++ cs := by
  induction cs with
  | nil =>
    intro pre suf hlen
    have : suf = [] := List.eq_nil_of_length_eq_zero hlen
    subst this
    rfl
  | cons c rest ih =>
    intro pre suf hlen
    rcases suf with _ | ⟨a, t⟩
    · simp at hlen
    · show writeSeq ((pre ++ a :: t).set pre.length c) (pre.length + 1) rest =
        pre ++ c :: rest
      rw [set_append_cons]
      have hre : pre ++ c :: t = (pre ++ [c]) ++ t := by simp
      have hlen1 : pre.length + 1 = (pre ++ [c]).length := by simp
      rw [hre, hlen1, ih (pre ++ [c]) t (by simpa using hlen)]
      simp

theorem runChars_nocmp (cfg : Config) (hcmp : cfg.compareWithCode = "") :
    ∀ (cs : List String) (s : IState), cs ≠ [] → (∀ c ∈ cs, c ≠ "") →
      Inv cfg s → s.currentIndex + cs.length = cfg.codeLength →
      (runChars cfg s cs).1 =
        ⟨writeSeq s.codeArr s.currentIndex cs, cfg.codeLength⟩ ∧
      (runChars cfg s cs).2.filter isFulfillEv =
        [Event.fulfill (String.join (writeSeq s.codeArr s.currentIndex cs)) none] ∧
      Event.blurReq (cfg.codeLength - 1) ∈ (runChars cfg s cs).2 := by
  intro cs
  induction cs with
  | nil => intro s hne; exact absurd rfl hne
  | cons c rest ih =>
    intro s _ hchars hInv harith
    have hc : c ≠ "" := hchars c (List.mem_cons_self c rest)
    rcases rest with _ | ⟨c2, rest2⟩
    · -- the entered character is the last one
      have hlast : s.currentIndex + 1 = cfg.codeLength := by
        simpa using harith
      have heq : opEnter cfg c s =
          (⟨s.codeArr.set s.currentIndex c, s.currentIndex + 1⟩,
           [Event.fulfill (String.join (s.codeArr.set s.currentIndex c)) none,
            Event.blurReq s.currentIndex,
            Event.codeChange (String.join (s.codeArr.set s.currentIndex c))]) := by
        rw [opEnter, onInput_last_nocmp cfg c s.currentIndex s hlast hcmp]
        rfl
      rw [runChars_cons, heq]
      have hblur : s.currentIndex = cfg.codeLength - 1 := by omega
      refine ⟨?_, ?_, ?_⟩
      · show IState.mk _ (s.currentIndex + 1) = _
        rw [hlast]
        rfl
      · show List.filter _ (_ ++ []) = _
        rw [List.append_nil]
        rfl
      · rw [runChars_nil]
        show Event.blurReq (cfg.codeLength - 1) ∈ _ ++ []
        rw [List.append_nil, hblur]
        exact List.mem_cons_of_mem _ (List.mem_cons_self _ _)
    · -- at least one more character follows
      have hnl : ¬ s.currentIndex + 1 = cfg.codeLength := by
        have : s.currentIndex + (rest2.length + 2) = cfg.codeLength := by
          simpa [Nat.add_comm, Nat.add_assoc, Nat.add_left_comm] using harith
        omega
      have heq := opEnter_mid_eq cfg s c hInv hc hnl
      have hInv' : Inv cfg ⟨s.codeArr.set s.currentIndex c, s.currentIndex + 1⟩ :=
        inv_set_advance cfg s c hInv hc (by
          have := hInv.2.1
          omega)
      have harith' :
          (IState.mk (s.codeArr.set s.currentIndex c) (s.currentIndex + 1)).currentIndex +
            (c2 :: rest2).length = cfg.codeLength := by
        show s.currentIndex + 1 + (c2 :: rest2).length = cfg.codeLength
        simp only [List.length_cons] at harith ⊢
        omega
      have hih := ih ⟨s.codeArr.set s.currentIndex c, s.currentIndex + 1⟩
        (by simp) (fun d hd => hchars d (List.mem_cons_of_mem c hd)) hInv' harith'
      rw [runChars_cons, heq]
      refine ⟨?_, ?_, ?_⟩
      · exact hih.1
      · rw [List.filter_append]
        show List.filter isFulfillEv [Event.focusReq _, Event.codeChange _] ++ _ = _
        rw [show List.filter isFulfillEv
            [Event.focusReq (s.currentIndex + 1),
             Event.codeChange (String.join (s.codeArr.set s.currentIndex c))] =
            [] from rfl]
        rw [List.nil_append]
        exact hih.2.1
      · exact List.mem_append_right _ hih.2.2

/-! ### Claim theorems -/

/-- C2: in every state reachable from the initial all-empty state by the
operations focus, enterCharacter, backspace, and clear, the focus index is
in range, slots below it are non-empty and slots from it on are empty —
except in the completion states where the last cell has just been filled
(there every slot is non-empty and the cursor has moved past the end). -/
theorem c2_cursor_invariant (cfg : Config) (hL : 1 ≤ cfg.codeLength)
    (s : IState) (h : Reachable cfg s) : Inv cfg s ∨ Completed cfg s := by
  induction h with
  | init => exact Or.inl (inv_initState cfg hL)
  | focus s k hs hk ih =>
    rcases ih with hi | hco
    · exact Or.inl (opFocus_inv cfg s k hi hk)
    · exact Or.inl (opFocus_completed cfg s k hco hk)
  | enter s c hs hc hidx ih =>
    rcases ih with hi | hco
    · exact opEnter_inv_or_completed cfg s c hi hc
    · exact absurd hidx (by rw [hco.2.1]; exact Nat.lt_irrefl _)
  | backspace s hs hidx ih =>
    rcases ih with hi | hco
    · exact Or.inl (opBackspace_inv cfg s hi)
    · exact absurd hidx (by rw [hco.2.1]; exact Nat.lt_irrefl _)
  | clearStep s hs ih =>
    rw [opClear_eq cfg hL]
    exact Or.inl (inv_initState cfg hL)

/-- Witness for C2 at a concrete reachable state. -/
theorem c2_cursor_invariant_witness :
    Inv ⟨4, "", false⟩ (opEnter ⟨4, "", false⟩ "1" (initState 4)).1 ∨
    Completed ⟨4, "", false⟩ (opEnter ⟨4, "", false⟩ "1" (initState 4)).1 :=
  c2_cursor_invariant ⟨4, "", false⟩ (by decide) _
    (Reachable.enter (initState 4) "1" Reachable.init (by decide) (by decide))

/-- C1: with a non-empty comparison target of the configured length,
entering the final character of a non-matching code emits
`onFulfill(code, false)` and a host focus request on cell 0, and once that
focus request is granted the state store is fully reset: all cells empty
and the cursor at 0 (the committed state equals the mount state).  Note
the reset materializes through the granted focus request: the handler's
own trailing `setState` overwrites `clear`'s updater, and `_onFocus 0`
then blanks every cell. -/
theorem c1_mismatch_reset (cfg : Config) (s : IState) (c : String)
    (hcmp : cfg.compareWithCode ≠ "")
    (_hlen : cfg.compareWithCode.length = cfg.codeLength)
    (hInv : Inv cfg s)
    (hlast : s.currentIndex = cfg.codeLength - 1)
    (hc : c ≠ "")
    (hmis : ¬ (if cfg.ignoreCase then
        lowerStr (String.join (s.codeArr.set s.currentIndex c)) =
          lowerStr cfg.compareWithCode
      else String.join (s.codeArr.set s.currentIndex c) = cfg.compareWithCode)) :
    opEnter cfg c s =
      (initState cfg.codeLength,
       [Event.fulfill (String.join (s.codeArr.set s.currentIndex c)) (some false),
        Event.focusReq 0, Event.blurReq s.currentIndex,
        Event.codeChange (String.join (s.codeArr.set s.currentIndex c))]) := by
  have hlast' : s.currentIndex + 1 = cfg.codeLength := by
    have := hInv.2.1
    omega
  have hm : _isMatchingCode (String.join (s.codeArr.set s.currentIndex c))
      cfg.compareWithCode cfg.ignoreCase = false := by
    rcases hb : _isMatchingCode (String.join (s.codeArr.set s.currentIndex c))
        cfg.compareWithCode cfg.ignoreCase with _ | _
    · rfl
    · exact absurd ((isMatchingCode_eq_true_iff _ _ _).1 hb) hmis
  exact opEnter_mismatch_eq cfg s c hInv hc hlast' hcmp hm

/-- Witness for C1: length 2, target `"ab"`, entering `"x"` after `"a"`. -/
theorem c1_mismatch_reset_witness :
    opEnter ⟨2, "ab", false⟩ "x" ⟨["a", ""], 1⟩ =
      (initState 2,
       [Event.fulfill (String.join (["a", ""].set 1 "x")) (some false),
        Event.focusReq 0, Event.blurReq 1,
        Event.codeChange (String.join (["a", ""].set 1 "x"))]) :=
  c1_mismatch_reset ⟨2, "ab", false⟩ ⟨["a", ""], 1⟩ "x" (by decide) (by decide)
    (by decide) (by decide) (by decide) (by decide)

/-- C3: for every code length L ≥ 1 with no comparison target, entering L
non-empty characters in order fires `onFulfill` exactly once, with the
concatenation of the typed characters and no match flag, and requests blur
of the field (the last cell). -/
theorem c3_fulfill_once (cfg : Config) (hcmp : cfg.compareWithCode = "")
    (hL : 1 ≤ cfg.codeLength) (cs : List String)
    (hlen : cs.length = cfg.codeLength) (hchars : ∀ c ∈ cs, c ≠ "") :
    (runChars cfg (initState cfg.codeLength) cs).2.filter isFulfillEv =
      [Event.fulfill (String.join cs) none] ∧
    Event.blurReq (cfg.codeLength - 1) ∈
      (runChars cfg (initState cfg.codeLength) cs).2 := by
  have hne : cs ≠ [] := by
    intro h
    rw [h] at hlen
    simp at hlen
    omega
  have hrun := runChars_nocmp cfg hcmp cs (initState cfg.codeLength) hne hchars
    (inv_initState cfg hL)
    (by show 0 + cs.length = cfg.codeLength; omega)
  have hw : writeSeq (initState cfg.codeLength).codeArr
      (initState cfg.codeLength).currentIndex cs = cs := by
    show writeSeq (List.replicate cfg.codeLength "") 0 cs = cs
    have := writeSeq_fills cs [] (List.replicate cfg.codeLength "")
      (by rw [List.length_replicate, hlen])
    simpa using this
  rw [hw] at hrun
  exact ⟨hrun.2.1, hrun.2.2⟩

/-- Witness for C3 with L = 4 and characters 1, 2, 3, 4. -/
theorem c3_fulfill_once_witness :
    (runChars ⟨4, "", false⟩ (initState 4) ["1", "2", "3", "4"]).2.filter
      isFulfillEv = [Event.fulfill (String.join ["1", "2", "3", "4"]) none] ∧
    Event.blurReq 3 ∈ (runChars ⟨4, "", false⟩ (initState 4)
      ["1", "2", "3", "4"]).2 :=
  c3_fulfill_once ⟨4, "", false⟩ rfl (by decide) ["1", "2", "3", "4"]
    (by decide) (by decide)

/-- C4: with a non-empty comparison target of the configured length,
entering a final character whose joined code equals the target — exact
equality with the case-insensitive flag off, lower-cased equality with it
on — emits `onFulfill(code, true)` and leaves the filled cell state intact:
the committed cell list is the filled one and no reset (no focus request)
is issued. -/
theorem c4_match_keeps_state (cfg : Config) (s : IState) (c : String)
    (hcmp : cfg.compareWithCode ≠ "")
    (_hlen : cfg.compareWithCode.length = cfg.codeLength)
    (hL : 1 ≤ cfg.codeLength)
    (hlast : s.currentIndex = cfg.codeLength - 1)
    (hmatch : if cfg.ignoreCase then
        lowerStr (String.join (s.codeArr.set s.currentIndex c)) =
          lowerStr cfg.compareWithCode
      else String.join (s.codeArr.set s.currentIndex c) = cfg.compareWithCode) :
    opEnter cfg c s =
      (⟨s.codeArr.set s.currentIndex c, s.currentIndex + 1⟩,
       [Event.fulfill (String.join (s.codeArr.set s.currentIndex c)) (some true),
        Event.blurReq s.currentIndex,
        Event.codeChange (String.join (s.codeArr.set s.currentIndex c))]) := by
  have hlast' : s.currentIndex + 1 = cfg.codeLength := by omega
  have hm : _isMatchingCode (String.join (s.codeArr.set s.currentIndex c))
      cfg.compareWithCode cfg.ignoreCase = true :=
    (isMatchingCode_eq_true_iff _ _ _).2 hmatch
  rw [opEnter, onInput_last_match cfg c s.currentIndex s hlast' hcmp hm]
  rfl

/-- Witness for C4: target `"AB"` with the case-insensitive flag on,
matched by `"ab"` with flipped casing. -/
theorem c4_match_keeps_state_witness :
    opEnter ⟨2, "AB", true⟩ "b" ⟨["a", ""], 1⟩ =
      (⟨["a", "b"], 2⟩,
       [Event.fulfill (String.join (["a", ""].set 1 "b")) (some true),
        Event.blurReq 1,
        Event.codeChange (String.join (["a", ""].set 1 "b"))]) :=
  c4_match_keeps_state ⟨2, "AB", true⟩ ⟨["a", ""], 1⟩ "b" (by decide)
    (by decide) (by decide) (by decide) (by decide)

/-- C5: for every cell index strictly below `codeLength - 1`, entering a
character at that (focused) index writes the character into the cell,
advances the cursor to `index + 1`, and issues a host focus request on
`index + 1`. -/
theorem c5_advance_focus (cfg : Config) (c : String) (index : Nat)
    (s : IState) (h1 : index < cfg.codeLength - 1)
    (h2 : s.currentIndex = index) :
    _onInputCode cfg c index s =
      (⟨s.codeArr.set index c, index + 1⟩,
       [Event.focusReq (index + 1),
        Event.codeChange (String.join (s.codeArr.set index c))]) := by
  have hnl : ¬ index + 1 = cfg.codeLength := by omega
  rw [onInput_not_last cfg c index s hnl, h2]

/-- Witness for C5 at index 1 of a length-4 widget. -/
theorem c5_advance_focus_witness :
    _onInputCode ⟨4, "", false⟩ "b" 1 ⟨["a", "", "", ""], 1⟩ =
      (⟨["a", "b", "", ""], 2⟩,
       [Event.focusReq 2,
        Event.codeChange (String.join (["a", "", "", ""].set 1 "b"))]) :=
  c5_advance_focus ⟨4, "", false⟩ "b" 1 ⟨["a", "", "", ""], 1⟩ (by decide)
    (by decide)

/-- C6: when host focus lands on cell `k` while some earlier slot is
empty, the handler issues a redirecting focus request to the first empty
slot and changes no cell; otherwise it issues no request (the host's focus
on `k` stands), blanks every slot at position `≥ k`, keeps every slot
below `k`, and sets the cursor to `k`. -/
theorem c6_focus_redirect_or_clear (s : IState) (k : Nat) :
    ((∃ j, j < k ∧ j < s.codeArr.length ∧ cell s j = "") →
      (_onFocus s k).1 = s ∧
      ∃ j, (_onFocus s k).2 = some j ∧ j < k ∧ cell s j = "" ∧
        ∀ i, i < j → cell s i ≠ "") ∧
    ((∀ j, j < k → j < s.codeArr.length → cell s j ≠ "") →
      (_onFocus s k).2 = none ∧ ((_onFocus s k).1).currentIndex = k ∧
      (∀ i, k ≤ i → cell (_onFocus s k).1 i = "") ∧
      (∀ i, i < k → cell (_onFocus s k).1 i = cell s i)) := by
  constructor
  · rintro ⟨j, hjk, hjlen, hje⟩
    rcases hfe : findEmptyIdx s.codeArr with _ | j0
    · exact absurd hje (findEmptyIdx_none_spec s.codeArr hfe j hjlen)
    · obtain ⟨h1, h2, h3⟩ := findEmptyIdx_some_spec s.codeArr j0 hfe
      have hj0 : j0 ≤ j := by
        by_contra hgt
        exact h3 j (by omega) hje
      have hj0k : j0 < k := by omega
      rw [_onFocus_redirect s j0 k hfe hj0k]
      exact ⟨rfl, j0, rfl, hj0k, h2, h3⟩
  · intro hall
    have hstate : (_onFocus s k).1 = ⟨clearFrom k s.codeArr, k⟩ ∧
        (_onFocus s k).2 = none := by
      rcases hfe : findEmptyIdx s.codeArr with _ | j0
      · rw [_onFocus_accept_none s k hfe]
        exact ⟨rfl, rfl⟩
      · obtain ⟨h1, h2, _⟩ := findEmptyIdx_some_spec s.codeArr j0 hfe
        have hnk : ¬ j0 < k := fun hlt => hall j0 hlt h1 h2
        rw [_onFocus_accept_some s j0 k hfe hnk]
        exact ⟨rfl, rfl⟩
    refine ⟨hstate.2, by rw [hstate.1], ?_, ?_⟩
    · intro i hki
      rw [hstate.1]
      show (clearFrom k s.codeArr).getD i "" = ""
      rw [getD_clearFrom, if_pos hki]
    · intro i hik
      rw [hstate.1]
      show (clearFrom k s.codeArr).getD i "" = cell s i
      rw [getD_clearFrom, if_neg (Nat.not_le_of_lt hik)]
      rfl

/-- Witness for C6: a redirect from cell 1 back to empty cell 0, and an
accepted focus on cell 0 of a filled-then-empty state. -/
theorem c6_focus_redirect_or_clear_witness :
    (_onFocus ⟨["", "y"], 0⟩ 1).1 = ⟨["", "y"], 0⟩ ∧
    (_onFocus ⟨["a", ""], 1⟩ 0).2 = none ∧
    ((_onFocus ⟨["a", ""], 1⟩ 0).1).currentIndex = 0 :=
  ⟨((c6_focus_redirect_or_clear ⟨["", "y"], 0⟩ 1).1
      ⟨0, by decide, by decide, rfl⟩).1,
   ((c6_focus_redirect_or_clear ⟨["a", ""], 1⟩ 0).2
      (fun j hj _ => absurd hj (Nat.not_lt_zero j))).1,
   ((c6_focus_redirect_or_clear ⟨["a", ""], 1⟩ 0).2
      (fun j hj _ => absurd hj (Nat.not_lt_zero j))).2.1⟩

/-- C7: from any invariant-satisfying state with cursor `i`, the backspace
operation blanks every cell from `i - 1` (clamped at 0) to the end, fires
`onCodeChange` with the joined cleared string, and transfers focus to
`i - 1`; at cursor 0 the index clamps to 0 and the cell contents are
unchanged.  Totality is by construction. -/
theorem c7_backspace_clears (cfg : Config) (s : IState) (hInv : Inv cfg s) :
    opBackspace s =
      (⟨clearFrom (s.currentIndex - 1) s.codeArr, s.currentIndex - 1⟩,
       [Event.codeChange (String.join (clearFrom (s.currentIndex - 1) s.codeArr)),
        Event.focusReq (s.currentIndex - 1)]) ∧
    (∀ i, s.currentIndex - 1 ≤ i → cell (opBackspace s).1 i = "") ∧
    (∀ i, i < s.currentIndex - 1 → cell (opBackspace s).1 i = cell s i) ∧
    (s.currentIndex = 0 → (opBackspace s).1 = s) := by
  have heq := opBackspace_eq cfg s hInv
  refine ⟨heq, ?_, ?_, ?_⟩
  · intro i hi
    rw [heq]
    show (clearFrom (s.currentIndex - 1) s.codeArr).getD i "" = ""
    rw [getD_clearFrom, if_pos hi]
  · intro i hi
    rw [heq]
    show (clearFrom (s.currentIndex - 1) s.codeArr).getD i "" = cell s i
    rw [getD_clearFrom, if_neg (Nat.not_le_of_lt hi)]
    rfl
  · intro hzero
    rw [heq, hzero]
    have hempty : ∀ i, 0 ≤ i → s.codeArr.getD i "" = "" := by
      intro i _
      by_cases hilen : i < cfg.codeLength
      · exact (hInv.2.2 i hilen).2 (by omega)
      · exact getD_of_length_le _ i (by rw [hInv.1]; omega)
    show IState.mk (clearFrom 0 s.codeArr) 0 = s
    rw [show (0 : Nat) = s.currentIndex from hzero.symm] at hempty ⊢
    rw [clearFrom_eq_self _ _ hempty]

/-- Witness for C7: backspace at cursor 2 of a length-3 widget. -/
theorem c7_backspace_clears_witness :
    opBackspace ⟨["a", "b", ""], 2⟩ =
      (⟨["a", "", ""], 1⟩,
       [Event.codeChange (String.join (clearFrom 1 ["a", "b", ""])),
        Event.focusReq 1]) :=
  (c7_backspace_clears ⟨3, "", false⟩ ⟨["a", "b", ""], 2⟩ (by decide)).1

/-- C9: the key-press handler itself never modifies the stored state — for
any key the returned state is the input state; for Backspace the cleared
array appears only in the `onCodeChange` payload, and the committed state
of the backspace operation arises solely from resolving the requested
focus transfer through the focus handler. -/
theorem c9_keypress_frame (s : IState) (key : String) :
    (_onKeyPress key s).1 = s ∧
    (_onKeyPress "Backspace" s).2 =
      [Event.codeChange (String.join (clearFrom (s.currentIndex - 1) s.codeArr)),
       Event.focusReq (s.currentIndex - 1)] ∧
    (opBackspace s).1 = resolveFocus s (s.currentIndex - 1) := by
  refine ⟨?_, ?_, ?_⟩
  · unfold _onKeyPress
    split <;> rfl
  · rw [onKeyPress_backspace]
  · show deliver (_onKeyPress "Backspace" s).1 (_onKeyPress "Backspace" s).2 = _
    rw [onKeyPress_backspace]
    show deliver s _ = _
    rw [deliver_codeChange, deliver_focusReq, deliver_nil]

/-- C10: an empty comparison target (the default when the prop is not
supplied) is treated as no target at all: completing the code emits the
one-argument `onFulfill` (no match flag) and no reset focus request, the
outcome is independent of the case-insensitivity flag (no match
computation), and the length-mismatch diagnostic does not fire even though
the empty string's length differs from every valid code length. -/
theorem c10_empty_target (cfg : Config) (c : String) (s : IState)
    (hcmp : cfg.compareWithCode = "")
    (hL : 1 ≤ cfg.codeLength)
    (hlast : s.currentIndex = cfg.codeLength - 1) :
    opEnter cfg c s =
      (⟨s.codeArr.set s.currentIndex c, s.currentIndex + 1⟩,
       [Event.fulfill (String.join (s.codeArr.set s.currentIndex c)) none,
        Event.blurReq s.currentIndex,
        Event.codeChange (String.join (s.codeArr.set s.currentIndex c))]) ∧
    (∀ ig : Bool, opEnter ⟨cfg.codeLength, cfg.compareWithCode, ig⟩ c s =
      opEnter cfg c s) ∧
    invalidCompareLength cfg = false := by
  have hlast' : s.currentIndex + 1 = cfg.codeLength := by omega
  have hmain : ∀ ig : Bool,
      opEnter ⟨cfg.codeLength, cfg.compareWithCode, ig⟩ c s =
        (⟨s.codeArr.set s.currentIndex c, s.currentIndex + 1⟩,
         [Event.fulfill (String.join (s.codeArr.set s.currentIndex c)) none,
          Event.blurReq s.currentIndex,
          Event.codeChange (String.join (s.codeArr.set s.currentIndex c))]) := by
    intro ig
    rw [opEnter, onInput_last_nocmp ⟨cfg.codeLength, cfg.compareWithCode, ig⟩
      c s.currentIndex s (by exact hlast') (by exact hcmp)]
    rfl
  have hcfg : opEnter cfg c s =
      (⟨s.codeArr.set s.currentIndex c, s.currentIndex + 1⟩,
       [Event.fulfill (String.join (s.codeArr.set s.currentIndex c)) none,
        Event.blurReq s.currentIndex,
        Event.codeChange (String.join (s.codeArr.set s.currentIndex c))]) := by
    rw [opEnter, onInput_last_nocmp cfg c s.currentIndex s hlast' hcmp]
    rfl
  refine ⟨hcfg, ?_, ?_⟩
  · intro ig
    rw [hmain ig, hcfg]
  · simp [invalidCompareLength, hcmp]

/-- Witness for C10 at L = 3 with the last character entered. -/
theorem c10_empty_target_witness :
    opEnter ⟨3, "", false⟩ "c" ⟨["a", "b", ""], 2⟩ =
      (⟨["a", "b", "c"], 3⟩,
       [Event.fulfill (String.join (["a", "b", ""].set 2 "c")) none,
        Event.blurReq 2,
        Event.codeChange (String.join (["a", "b", ""].set 2 "c"))]) ∧
    invalidCompareLength ⟨3, "", false⟩ = false :=
  ⟨(c10_empty_target ⟨3, "", false⟩ "c" ⟨["a", "b", ""], 2⟩ rfl (by decide)
      (by decide)).1,
   (c10_empty_target ⟨3, "", false⟩ "c" ⟨["a", "b", ""], 2⟩ rfl (by decide)
      (by decide)).2.2⟩

/-- C8 (amended): `onCodeChange` fires exactly once per accepted character
entry and exactly once per backspace, each time with the joined current
string (empty slots contribute nothing); in the L = 4 example, typing
"1","2","3","4" yields exactly four `onCodeChange` calls with "1", "12",
"123", "1234" and one `onFulfill("1234")`, but the `onFulfill` is emitted
immediately before the final `onCodeChange`, not after it. -/
theorem c8_codechange_per_keystroke :
    (∀ (cfg : Config) (c : String) (index : Nat) (s : IState),
      (_onInputCode cfg c index s).2.filter isCodeChangeEv =
        [Event.codeChange (String.join (s.codeArr.set index c))]) ∧
    (∀ s : IState,
      (_onKeyPress "Backspace" s).2.filter isCodeChangeEv =
        [Event.codeChange
          (String.join (clearFrom (s.currentIndex - 1) s.codeArr))]) ∧
    (runChars ⟨4, "", false⟩ (initState 4) ["1", "2", "3", "4"]).2.filter
        (fun e => isCodeChangeEv e || isFulfillEv e) =
      [Event.codeChange "1", Event.codeChange "12", Event.codeChange "123",
       Event.fulfill "1234" none, Event.codeChange "1234"] := by
  refine ⟨?_, ?_, ?_⟩
  · intro cfg c index s
    by_cases hlast : index + 1 = cfg.codeLength
    · by_cases hcmp : cfg.compareWithCode = ""
      · rw [onInput_last_nocmp cfg c index s hlast hcmp]
        rfl
      · rcases hm : _isMatchingCode (String.join (s.codeArr.set index c))
            cfg.compareWithCode cfg.ignoreCase with _ | _
        · rw [onInput_last_mismatch cfg c index s hlast hcmp hm]
          rfl
        · rw [onInput_last_match cfg c index s hlast hcmp hm]
          rfl
    · rw [onInput_not_last cfg c index s hlast]
      rfl
  · intro s
    rw [onKeyPress_backspace]
    rfl
  · decide

/-- Counterexample for C8 as stated: in the L = 4 example the relevant
callback sequence is not four `onCodeChange` calls followed by the
`onFulfill` — the `onFulfill` precedes the final `onCodeChange`. -/
theorem c8_claimed_order_false :
    (runChars ⟨4, "", false⟩ (initState 4) ["1", "2", "3", "4"]).2.filter
        (fun e => isCodeChangeEv e || isFulfillEv e) ≠
      [Event.codeChange "1", Event.codeChange "12", Event.codeChange "123",
       Event.codeChange "1234", Event.fulfill "1234" none] := by
  decide

end CodeInput
